import Mathlib

/-!
Shallow embedding of the crypto-heat dashboard pipeline (src/app.py).

Daily price/volume/sentiment series are modelled as association lists from
day numbers (ℕ, one unit per calendar day; weeks are the consecutive blocks
of seven days) to exact rationals.  A pandas Series column of length n is
modelled as a `List (Option ℚ)` (or `List (Option ℝ)` for the volatility
column, which involves a square root): `none` stands for NaN, and the pandas
rule that every comparison against NaN is `False` is captured by the boolean
comparison helpers below.

The columns mirror `load_data`:
  * `compositeCol`    — `daily["index"] = 0.65 * daily["btc"] + 0.35 * daily["eth"]`,
    built over the BTC date index (column assignment aligns ETH onto it);
  * `resampleLast`/`weeklyPairs` — `daily["index"].resample("W-FRI").last()`
    followed by `dropna()`;
  * `returnsCol`      — `weekly["index"].pct_change()`;
  * `volVarCol`/`volatilityCol` — `weekly["returns"].rolling(26).std() * sqrt(52)`
    (the rolling sample variance is rational; the square root is taken in ℝ);
  * `resampleMean`, `ffill`, `alignTo`, `fngColOf` — the Fear & Greed branch
    `weekly["fng"] = fng["value"].resample("W-FRI").mean().ffill()` with the
    `except` fallback `weekly["fng"] = 50`;
  * `trendCol`, `stretchCol` — `rolling(52).mean()` and `(index - trend)/trend`;
  * `overheatCol`     — the three-condition overheat rule;
  * `statusOf`        — the `latest = weekly.iloc[-1]` status block (reading
    `iloc[-1]` of an empty table raises, which is modelled as `none`);
  * `recentOverheat`  — `weekly[weekly["overheat"]].tail(10)`, as the list of
    row positions of the reported rows.

Rolling windows follow pandas semantics with the default
`min_periods = window`: at row `i` the window is the `n` trailing positions
ending at `i`, the result is NaN while fewer than `n` rows exist or whenever
the window contains a NaN.
-/

/-- Models `WEEKLY_VOL_WINDOW = 26` from src/app.py. -/
def WEEKLY_VOL_WINDOW : ℕ := 26

/-- Models `WEEKLY_TREND_WINDOW = 52` from src/app.py. -/
def WEEKLY_TREND_WINDOW : ℕ := 52

/-- Models `FG_OVERHEAT = 80` from src/app.py. -/
def FG_OVERHEAT : ℚ := 80

/-- Models `MIN_FG_WEEKS = 3` from src/app.py. -/
def MIN_FG_WEEKS : ℕ := 3

/-- Models `STRETCH_THRESHOLD = 0.5` from src/app.py. -/
def STRETCH_THRESHOLD : ℚ := 1 / 2

/-- The week bucket containing day `d`: consecutive blocks of seven days,
modelling the fixed `W-FRI` weekly boundary of `resample("W-FRI")`. -/
def weekOf (d : ℕ) : ℕ := d / 7

/-- All-or-nothing sequencing of one rolling window: `some` of the values if
no entry is NaN, otherwise `none` (pandas aggregates with
`min_periods = window` produce NaN as soon as the window holds a NaN). -/
def seqOpt : List (Option ℚ) → Option (List ℚ)
  | [] => some []
  | none :: _ => none
  | some x :: t => (seqOpt t).map (fun xs => x :: xs)

/-- The trailing window of length `n` ending at row `i` of column `xs`
(out-of-range positions read as NaN; they only arise while `i + 1 < n`). -/
def windowAt (n : ℕ) (xs : List (Option ℚ)) (i : ℕ) : List (Option ℚ) :=
  (List.range n).map (fun j => xs.getD (i + 1 - n + j) none)

/-- Models `xs.rolling(n).agg(f)` with the pandas default `min_periods = n`. -/
def rollApply (n : ℕ) (f : List ℚ → ℚ) (xs : List (Option ℚ)) : List (Option ℚ) :=
  (List.range xs.length).map (fun i =>
    if n ≤ i + 1 then (seqOpt (windowAt n xs i)).map f else none)

/-- Arithmetic mean, as used by `rolling(·).mean()`. -/
def meanQ (l : List ℚ) : ℚ := l.sum / l.length

/-- Sample variance (pandas `std` default `ddof = 1`, before the square
root): `Σ (x - mean)² / (n - 1)`. -/
def sampleVarQ (l : List ℚ) : ℚ :=
  ((l.map (fun x => (x - meanQ l) ^ 2)).sum) / ((l.length : ℚ) - 1)

/-- Models `weekly["returns"] = weekly["index"].pct_change()`: NaN at the first row,
then this week's value over the previous week's, minus one.  (After
`dropna()` the weekly index column itself has no NaN.) -/
def returnsCol (idx : List ℚ) : List (Option ℚ) :=
  (List.range idx.length).map (fun i =>
    if i = 0 then none else some (idx.getD i 0 / idx.getD (i - 1) 0 - 1))

/-- The rolling 26-week sample variance of the returns: the (rational) square
of `weekly["returns"].rolling(26).std()`. -/
def volVarCol (idx : List ℚ) : List (Option ℚ) :=
  rollApply WEEKLY_VOL_WINDOW sampleVarQ (returnsCol idx)

/-- Models `weekly["volatility"] = weekly["returns"].rolling(26).std() * np.sqrt(52)`,
with the square roots taken in ℝ. -/
noncomputable def volatilityCol (idx : List ℚ) : List (Option ℝ) :=
  (volVarCol idx).map (Option.map (fun v : ℚ => Real.sqrt (v : ℝ) * Real.sqrt 52))

/-- Models `weekly["trend"] = weekly["index"].rolling(52).mean()`. -/
def trendCol (idx : List ℚ) : List (Option ℚ) :=
  rollApply WEEKLY_TREND_WINDOW meanQ (idx.map some)

/-- Models `weekly["stretch"] = (weekly["index"] - weekly["trend"]) / weekly["trend"]`:
NaN wherever the trend is NaN. -/
def stretchCol (idx : List ℚ) : List (Option ℚ) :=
  (List.range idx.length).map (fun i =>
    ((trendCol idx).getD i none).map (fun t => (idx.getD i 0 - t) / t))

/-- Models `weekly["fng"].rolling(3).mean()`, the sentiment-confirmation mean of the
overheat rule. -/
def fngMeanCol (fng : List (Option ℚ)) : List (Option ℚ) :=
  rollApply MIN_FG_WEEKS meanQ fng

/-- Pandas `Series.median()` of the values listed: sort, take the middle
element (odd count) or the mean of the two middle elements (even count);
NaN (`none`) for an empty list. -/
noncomputable def medianO (l : List ℝ) : Option ℝ :=
  match l with
  | [] => none
  | _ :: _ =>
    let s := List.insertionSort (fun a b => a ≤ b) l
    if l.length % 2 = 1 then some (s.getD (l.length / 2) 0)
    else some ((s.getD (l.length / 2 - 1) 0 + s.getD (l.length / 2) 0) / 2)

/-- Models `weekly["volatility"].expanding().median()` at row `i`: the median of the
non-NaN volatility values of rows `0..i` (NaN if there are none). -/
noncomputable def expMedianAt (vol : List (Option ℝ)) (i : ℕ) : Option ℝ :=
  medianO ((vol.take (i + 1)).filterMap id)

/-- Pandas comparison `x >= c` of a possibly-NaN value: `False` on NaN. -/
def geQ (o : Option ℚ) (c : ℚ) : Bool :=
  match o with
  | some x => decide (c ≤ x)
  | none => false

/-- Pandas comparison `x > y` of two possibly-NaN reals: `False` if either
side is NaN. -/
noncomputable def gtR (o m : Option ℝ) : Bool :=
  match o, m with
  | some x, some y => decide (y < x)
  | _, _ => false

/-- The overheat rule of `load_data`:
`(fng.rolling(3).mean() >= 80) & (stretch >= 0.5) &
 (volatility > volatility.expanding().median())`. -/
noncomputable def overheatCol (idx : List ℚ) (fng : List (Option ℚ)) : List Bool :=
  (List.range idx.length).map (fun i =>
    (geQ ((fngMeanCol fng).getD i none) FG_OVERHEAT &&
       geQ ((stretchCol idx).getD i none) STRETCH_THRESHOLD) &&
      gtR ((volatilityCol idx).getD i none) (expMedianAt (volatilityCol idx) i))

/-- The status block of src/app.py, lines 96-106.  `latest = weekly.iloc[-1]`
raises `IndexError` on an empty table, modelled by the `none` result;
otherwise the emoji-decorated label the script builds. -/
noncomputable def statusOf (idx : List ℚ) (fng : List (Option ℚ)) : Option String :=
  if idx.length = 0 then none
  else some (
    if (overheatCol idx fng).getD (idx.length - 1) false then ("🔥 OVERHEATED")
    else if ((match (stretchCol idx).getD (idx.length - 1) none with
              | some s => decide (20 < s * 100)
              | none => false) &&
             (match fng.getD (idx.length - 1) none with
              | some g => decide (60 < g)
              | none => false)) then ("⚠️ WARM")
    else ("🟢 COOL"))

/-- The row positions of `weekly[weekly["overheat"]]`: the overheated weeks
in chronological order. -/
noncomputable def overheatIdxList (idx : List ℚ) (fng : List (Option ℚ)) : List ℕ :=
  (List.range idx.length).filter (fun i => (overheatCol idx fng).getD i false)

/-- Models `weekly[weekly["overheat"]].tail(10)`: the last at most ten overheated
rows, as row positions. -/
noncomputable def recentOverheat (idx : List ℚ) (fng : List (Option ℚ)) : List ℕ :=
  (overheatIdxList idx fng).drop ((overheatIdxList idx fng).length - 10)

/-- The BTC weight `0.65` of the composite index. -/
def wA : ℚ := 65 / 100

/-- The ETH weight `0.35` of the composite index. -/
def wB : ℚ := 35 / 100

/-- Models `daily["index"] = 0.65 * daily["btc"] + 0.35 * daily["eth"]`.  The daily
frame is indexed by the BTC dates (the first assigned column fixes the index
and ETH is aligned onto it), so the composite is an association list over
BTC's dates, NaN where the ETH price is missing. -/
def compositeCol (btc eth : List (ℕ × ℚ)) : List (ℕ × Option ℚ) :=
  btc.map (fun p => (p.1, (List.lookup p.1 eth).map (fun pe => wA * p.2 + wB * pe)))

/-- Reading the composite index at a date: `none` both for a date absent from
the frame and for a NaN entry. -/
def idxAt (d : ℕ) (l : List (ℕ × Option ℚ)) : Option ℚ :=
  (List.lookup d l).getD none

/-- Smallest week bucket among a list of days (`0` for no days). -/
def wkMin (ds : List ℕ) : ℕ :=
  match ds.map weekOf with
  | [] => 0
  | w :: t => t.foldr min w

/-- Largest week bucket among a list of days (`0` for no days). -/
def wkMax (ds : List ℕ) : ℕ :=
  match ds.map weekOf with
  | [] => 0
  | w :: t => t.foldr max w

/-- The full run of week buckets a resample produces: every week from the
first to the last observed day, empty buckets included. -/
def weeksRange (ds : List ℕ) : List ℕ :=
  match ds with
  | [] => []
  | _ :: _ => List.range' (wkMin ds) (wkMax ds - wkMin ds + 1)

/-- Models `resample("W-FRI").last()`: per week bucket, the last non-NaN value in
the bucket, NaN for a bucket with no valid value. -/
def resampleLast (l : List (ℕ × Option ℚ)) : List (ℕ × Option ℚ) :=
  (weeksRange (l.map Prod.fst)).map (fun w =>
    (w, ((l.filter (fun p => weekOf p.1 == w)).filterMap Prod.snd).getLast?))

/-- The sentiment samples falling in week bucket `w`. -/
def bucketVals (f : List (ℕ × ℚ)) (w : ℕ) : List ℚ :=
  (f.filter (fun p => weekOf p.1 == w)).map Prod.snd

/-- Models `resample("W-FRI").mean()`: per week bucket, the arithmetic mean of the
samples in the bucket, NaN for an empty bucket. -/
def resampleMean (f : List (ℕ × ℚ)) : List (ℕ × Option ℚ) :=
  (weeksRange (f.map Prod.fst)).map (fun w =>
    (w, if (bucketVals f w).length = 0 then none
        else some ((bucketVals f w).sum / (bucketVals f w).length)))

/-- Forward fill with an explicit carry: each NaN entry takes the most recent
earlier value, `c` being the value carried in from before the list. -/
def ffillGo (c : Option ℚ) : List (ℕ × Option ℚ) → List (ℕ × Option ℚ)
  | [] => []
  | p :: t =>
    match p.2 with
    | some v => (p.1, some v) :: ffillGo (some v) t
    | none => (p.1, c) :: ffillGo c t

/-- Models `Series.ffill()`: leading NaNs stay, later NaNs take the last valid
value. -/
def ffill (l : List (ℕ × Option ℚ)) : List (ℕ × Option ℚ) := ffillGo none l

/-- Label alignment of a column assignment `weekly["fng"] = s`: each key of
the weekly frame reads its value from `s`, NaN when the key is absent. -/
def alignTo (keys : List ℕ) (s : List (ℕ × Option ℚ)) : List (Option ℚ) :=
  keys.map (fun k => (List.lookup k s).getD none)

/-- The weekly frame after `dropna()`: the (week, index value) rows whose
resampled composite index is defined. -/
def weeklyPairs (btc eth : List (ℕ × ℚ)) : List (ℕ × ℚ) :=
  (resampleLast (compositeCol btc eth)).filterMap (fun p => p.2.map (fun v => (p.1, v)))

/-- The week labels of the weekly frame. -/
def weeklyWeeks (btc eth : List (ℕ × ℚ)) : List ℕ :=
  (weeklyPairs btc eth).map Prod.fst

/-- The weekly composite index column. -/
def weeklyIdxOf (btc eth : List (ℕ × ℚ)) : List ℚ :=
  (weeklyPairs btc eth).map Prod.snd

/-- The weekly sentiment column: on a successful fetch (`some f`), the daily
Fear & Greed samples are bucketed to weekly means, forward filled and aligned
onto the weekly frame; on a failed fetch (`none`) the `except` branch assigns
the constant neutral `50` to every row. -/
def fngColOf (btc eth : List (ℕ × ℚ)) (fngOpt : Option (List (ℕ × ℚ))) :
    List (Option ℚ) :=
  match fngOpt with
  | some f => alignTo (weeklyWeeks btc eth) (ffill (resampleMean f))
  | none => (weeklyWeeks btc eth).map (fun _ => some 50)

/-! ### Generic helper lemmas -/

lemma getD_rangeMap {α : Type _} {n w : ℕ} (f : ℕ → α) (d : α) (hw : w < n) :
    ((List.range n).map f).getD w d = f w := by
  simp [List.getD_eq_getElem?_getD, List.getElem?_map, List.getElem?_range hw]

lemma getD_out {α : Type _} (l : List α) (w : ℕ) (d : α) (h : l.length ≤ w) :
    l.getD w d = d := by
  simp [List.getD_eq_getElem?_getD, List.getElem?_eq_none h]

lemma length_rollApply (n : ℕ) (f : List ℚ → ℚ) (xs : List (Option ℚ)) :
    (rollApply n f xs).length = xs.length := by
  simp [rollApply]

lemma length_returnsCol (idx : List ℚ) : (returnsCol idx).length = idx.length := by
  simp [returnsCol]

lemma length_volVarCol (idx : List ℚ) : (volVarCol idx).length = idx.length := by
  simp [volVarCol, length_rollApply, length_returnsCol]

lemma length_volatilityCol (idx : List ℚ) : (volatilityCol idx).length = idx.length := by
  simp [volatilityCol, length_volVarCol]

lemma length_trendCol (idx : List ℚ) : (trendCol idx).length = idx.length := by
  simp [trendCol, length_rollApply]

lemma length_stretchCol (idx : List ℚ) : (stretchCol idx).length = idx.length := by
  simp [stretchCol]

lemma length_overheatCol (idx : List ℚ) (fng : List (Option ℚ)) :
    (overheatCol idx fng).length = idx.length := by
  simp [overheatCol]

lemma rollApply_getD (n : ℕ) (f : List ℚ → ℚ) (xs : List (Option ℚ)) (w : ℕ)
    (hw : w < xs.length) :
    (rollApply n f xs).getD w none =
      if n ≤ w + 1 then (seqOpt (windowAt n xs w)).map f else none := by
  unfold rollApply
  exact getD_rangeMap _ _ hw

lemma seqOpt_map_some (l : List ℚ) : seqOpt (l.map some) = some l := by
  induction l with
  | nil => rfl
  | cons a t ih => simp [seqOpt, ih]

lemma seqOpt_none (l : List (Option ℚ)) (h : none ∈ l) : seqOpt l = none := by
  induction l with
  | nil => cases h
  | cons a t ih =>
    rcases List.mem_cons.mp h with hh | hh
    · rw [← hh]; simp [seqOpt]
    · cases a <;> simp [seqOpt, ih hh]

lemma geQ_iff (o : Option ℚ) (c : ℚ) : geQ o c = true ↔ ∃ x, o = some x ∧ c ≤ x := by
  cases o <;> simp [geQ]

lemma gtR_iff (o m : Option ℝ) :
    gtR o m = true ↔ ∃ x y, o = some x ∧ m = some y ∧ y < x := by
  cases o <;> cases m <;> simp [gtR]

lemma optmap_getD (l : List (Option ℚ)) (f : ℚ → ℝ) (w : ℕ) :
    (l.map (Option.map f)).getD w none = Option.map f (l.getD w none) := by
  simp only [List.getD_eq_getElem?_getD, List.getElem?_map]
  cases l[w]? <;> rfl

lemma fng_cond_iff (fng : List (Option ℚ)) (w : ℕ) :
    geQ ((fngMeanCol fng).getD w none) FG_OVERHEAT = true ↔
      (2 ≤ w ∧ ∃ a b c, fng.getD (w - 2) none = some a ∧ fng.getD (w - 1) none = some b ∧
        fng.getD w none = some c ∧ 80 ≤ (a + b + c) / 3) := by
  by_cases hw : w < fng.length
  · rw [fngMeanCol, rollApply_getD _ _ _ _ hw]
    by_cases h2 : 2 ≤ w
    · rw [if_pos (by unfold MIN_FG_WEEKS; omega)]
      have hwin : windowAt MIN_FG_WEEKS fng w =
          [fng.getD (w - 2) none, fng.getD (w - 1) none, fng.getD w none] := by
        unfold windowAt MIN_FG_WEEKS
        have hr : List.range 3 = [0, 1, 2] := rfl
        rw [hr]
        have e0 : w + 1 - 3 + 0 = w - 2 := by omega
        have e1 : w + 1 - 3 + 1 = w - 1 := by omega
        have e2 : w + 1 - 3 + 2 = w := by omega
        simp only [List.map]
        rw [e0, e1, e2]
      rw [hwin]
      rcases hA : fng.getD (w - 2) none with _ | a
      · simp [seqOpt, geQ]
      · rcases hB : fng.getD (w - 1) none with _ | b
        · simp [seqOpt, geQ]
        · rcases hC : fng.getD w none with _ | c
          · simp [seqOpt, geQ]
          · have hseq : (seqOpt [some a, some b, some c]).map meanQ =
                some ((a + b + c) / 3) := by
              have hm : meanQ [a, b, c] = (a + b + c) / 3 := by
                unfold meanQ
                norm_num
                ring
              simp [seqOpt, hm]
            rw [hseq, geQ_iff]
            constructor
            · rintro ⟨x, hx, hge⟩
              rw [Option.some_inj] at hx
              subst hx
              exact ⟨h2, a, b, c, rfl, rfl, rfl, hge⟩
            · rintro ⟨-, a', b', c', hA', hB', hC', hge⟩
              rw [Option.some_inj] at hA' hB' hC'
              subst hA'; subst hB'; subst hC'
              exact ⟨(a + b + c) / 3, rfl, hge⟩
    · rw [if_neg (by unfold MIN_FG_WEEKS; omega)]
      simp [geQ, h2]
  · have hlen : (fngMeanCol fng).length = fng.length := by
      simp [fngMeanCol, length_rollApply]
    rw [getD_out _ _ _ (by omega)]
    have hnone : fng.getD w none = none := getD_out _ _ _ (by omega)
    rw [hnone]
    simp [geQ]

/-- C1: for every week `w` of the weekly table, the overheat flag is true iff
all three conditions hold: the mean of sentiment over the trailing 3 weeks
ending at `w` is ≥ 80 (all three weeks carrying a defined sentiment), the
stretch at `w` is defined and ≥ 0.5, and the volatility at `w` is defined and
strictly greater than the median of all volatility values from the start of
history up to and including `w` — with exactly these inclusive/strict
comparisons. -/
theorem C1_overheat_rule (idx : List ℚ) (fng : List (Option ℚ)) (w : ℕ) :
    (overheatCol idx fng).getD w false = true ↔
      ((2 ≤ w ∧ ∃ a b c, fng.getD (w - 2) none = some a ∧ fng.getD (w - 1) none = some b ∧
          fng.getD w none = some c ∧ 80 ≤ (a + b + c) / 3) ∧
       (∃ s, (stretchCol idx).getD w none = some s ∧ 1 / 2 ≤ s) ∧
       (∃ v m, (volatilityCol idx).getD w none = some v ∧
          expMedianAt (volatilityCol idx) w = some m ∧ m < v)) := by
  by_cases hw : w < idx.length
  · have hbody : (overheatCol idx fng).getD w false =
        ((geQ ((fngMeanCol fng).getD w none) FG_OVERHEAT &&
            geQ ((stretchCol idx).getD w none) STRETCH_THRESHOLD) &&
          gtR ((volatilityCol idx).getD w none) (expMedianAt (volatilityCol idx) w)) := by
      unfold overheatCol
      exact getD_rangeMap _ _ hw
    rw [hbody]
    simp only [Bool.and_eq_true]
    rw [fng_cond_iff, geQ_iff, gtR_iff]
    unfold STRETCH_THRESHOLD
    constructor
    · rintro ⟨⟨hA, hB⟩, hC⟩; exact ⟨hA, hB, hC⟩
    · rintro ⟨hA, hB, hC⟩; exact ⟨⟨hA, hB⟩, hC⟩
  · have h1 : (overheatCol idx fng).getD w false = false := by
      apply getD_out
      rw [length_overheatCol]; omega
    have h2 : (stretchCol idx).getD w none = none := by
      apply getD_out
      rw [length_stretchCol]; omega
    rw [h1, h2]
    simp

/-- C1 witness: the overheat rule instantiated at a concrete table. -/
theorem C1_overheat_rule_witness :
    (overheatCol [] []).getD 0 false = true ↔
      ((2 ≤ 0 ∧ ∃ a b c, ([] : List (Option ℚ)).getD (0 - 2) none = some a ∧
          ([] : List (Option ℚ)).getD (0 - 1) none = some b ∧
          ([] : List (Option ℚ)).getD 0 none = some c ∧ 80 ≤ (a + b + c) / 3) ∧
       (∃ s, (stretchCol []).getD 0 none = some s ∧ 1 / 2 ≤ s) ∧
       (∃ v m, (volatilityCol []).getD 0 none = some v ∧
          expMedianAt (volatilityCol []) 0 = some m ∧ m < v)) :=
  C1_overheat_rule [] [] 0

/-- C2: if any of the three classifier inputs (the trailing-3-week sentiment
mean, the stretch, the volatility) is undefined at week `w`, the overheat
flag at `w` is false; and the overheat column assigns a boolean (never an
undefined value) to every one of the `idx.length` weekly rows. -/
theorem C2_undefined_inputs (idx : List ℚ) (fng : List (Option ℚ)) (w : ℕ)
    (h : (fngMeanCol fng).getD w none = none ∨ (stretchCol idx).getD w none = none ∨
      (volatilityCol idx).getD w none = none) :
    (overheatCol idx fng).getD w false = false ∧
      (overheatCol idx fng).length = idx.length := by
  refine ⟨?_, length_overheatCol idx fng⟩
  by_cases hw : w < idx.length
  · have hbody : (overheatCol idx fng).getD w false =
        ((geQ ((fngMeanCol fng).getD w none) FG_OVERHEAT &&
            geQ ((stretchCol idx).getD w none) STRETCH_THRESHOLD) &&
          gtR ((volatilityCol idx).getD w none) (expMedianAt (volatilityCol idx) w)) := by
      unfold overheatCol
      exact getD_rangeMap _ _ hw
    rw [hbody]
    rcases h with h | h | h <;> rw [h] <;> simp [geQ, gtR]
  · apply getD_out
    rw [length_overheatCol]; omega

/-- C2 witness: at the very first week the trailing-3-week sentiment mean is
undefined and the overheat flag is false. -/
theorem C2_undefined_inputs_witness :
    (fngMeanCol [none]).getD 0 none = none ∧
      ((overheatCol [1] [none]).getD 0 false = false ∧
        (overheatCol [1] [none]).length = ([(1 : ℚ)]).length) :=
  ⟨by decide, C2_undefined_inputs [1] [none] 0 (Or.inl (by decide))⟩

lemma getD_map_some (idx : List ℚ) (p : ℕ) (hp : p < idx.length) :
    (idx.map some).getD p none = some (idx.getD p 0) := by
  simp [List.getD_eq_getElem?_getD, List.getElem?_map, List.getElem?_eq_getElem hp]

/-- C7: the trend is undefined for every week strictly before the 52nd weekly
observation (positions 0 to 50), and from the 52nd observation onward it is
the arithmetic mean of the index values of the trailing 52 weeks ending at
and including `w`. -/
theorem C7_trend_window (idx : List ℚ) (w : ℕ) (hw : w < idx.length) :
    (w < 51 → (trendCol idx).getD w none = none) ∧
    (51 ≤ w → (trendCol idx).getD w none =
      some (meanQ ((List.range 52).map (fun j => idx.getD (w - 51 + j) 0)))) := by
  have hw' : w < (idx.map some).length := by simpa using hw
  constructor
  · intro h51
    rw [trendCol, rollApply_getD _ _ _ _ hw']
    rw [if_neg (by unfold WEEKLY_TREND_WINDOW; omega)]
  · intro h51
    rw [trendCol, rollApply_getD _ _ _ _ hw']
    rw [if_pos (by unfold WEEKLY_TREND_WINDOW; omega)]
    have hwin : windowAt WEEKLY_TREND_WINDOW (idx.map some) w =
        ((List.range 52).map (fun j => idx.getD (w - 51 + j) 0)).map some := by
      unfold windowAt WEEKLY_TREND_WINDOW
      rw [List.map_map]
      apply List.map_congr_left
      intro j hj
      have hj' : j < 52 := List.mem_range.mp hj
      have e : w + 1 - 52 + j = w - 51 + j := by omega
      rw [Function.comp_apply, e]
      exact getD_map_some idx _ (by omega)
    rw [hwin, seqOpt_map_some]
    rfl

/-- C7 witness: a 52-week constant table, evaluated at the 52nd row. -/
theorem C7_trend_window_witness :
    51 < (List.replicate 52 (1 : ℚ)).length ∧
      ((51 < 51 → (trendCol (List.replicate 52 (1 : ℚ))).getD 51 none = none) ∧
       (51 ≤ 51 → (trendCol (List.replicate 52 (1 : ℚ))).getD 51 none =
         some (meanQ ((List.range 52).map
           (fun j => (List.replicate 52 (1 : ℚ)).getD (51 - 51 + j) 0))))) :=
  ⟨by decide, C7_trend_window (List.replicate 52 (1 : ℚ)) 51 (by decide)⟩

/-- C8: the returns column is this week's index value over the previous
week's minus one (undefined at the first row), the volatility is undefined
before 26 return observations exist (positions 0 to 25), and from position 26
onward it equals the sample standard deviation of the trailing 26 returns
times the square root of 52. -/
theorem C8_volatility_window (idx : List ℚ) (w : ℕ) (hw : w < idx.length) :
    ((returnsCol idx).getD 0 none = none ∧
      (1 ≤ w → (returnsCol idx).getD w none =
        some (idx.getD w 0 / idx.getD (w - 1) 0 - 1))) ∧
    (w < 26 → (volatilityCol idx).getD w none = none) ∧
    (26 ≤ w → (volatilityCol idx).getD w none =
      some (Real.sqrt
          (sampleVarQ ((List.range 26).map
            (fun j => idx.getD (w - 25 + j) 0 / idx.getD (w - 26 + j) 0 - 1))) *
        Real.sqrt 52)) := by
  have hret : ∀ p : ℕ, 1 ≤ p → p < idx.length →
      (returnsCol idx).getD p none = some (idx.getD p 0 / idx.getD (p - 1) 0 - 1) := by
    intro p hp1 hp2
    rw [returnsCol, getD_rangeMap _ _ hp2, if_neg (by omega)]
  have hret0 : (returnsCol idx).getD 0 none = none := by
    rcases Nat.eq_zero_or_pos idx.length with h | h
    · exact getD_out _ _ _ (by simp [length_returnsCol, h])
    · rw [returnsCol, getD_rangeMap _ _ h, if_pos rfl]
  have hvv : ∀ o : Option ℚ, (volVarCol idx).getD w none = o →
      (volatilityCol idx).getD w none =
        Option.map (fun v : ℚ => Real.sqrt (v : ℝ) * Real.sqrt 52) o := by
    intro o ho
    rw [volatilityCol, optmap_getD, ho]
  have hw' : w < (returnsCol idx).length := by simpa [length_returnsCol] using hw
  refine ⟨⟨hret0, fun h1 => hret w h1 hw⟩, ?_, ?_⟩
  · intro h26
    rcases Nat.lt_or_ge w 25 with h25 | h25
    · refine hvv none ?_
      rw [volVarCol, rollApply_getD _ _ _ _ hw']
      rw [if_neg (by unfold WEEKLY_VOL_WINDOW; omega)]
    · have hw25 : w = 25 := by omega
      subst hw25
      refine hvv none ?_
      rw [volVarCol, rollApply_getD _ _ _ _ hw']
      rw [if_pos (by unfold WEEKLY_VOL_WINDOW; omega)]
      have hmem : none ∈ windowAt WEEKLY_VOL_WINDOW (returnsCol idx) 25 := by
        unfold windowAt WEEKLY_VOL_WINDOW
        refine List.mem_map.mpr ⟨0, by simp, ?_⟩
        simpa using hret0
      rw [seqOpt_none _ hmem]
      rfl
  · intro h26
    refine hvv (some (sampleVarQ ((List.range 26).map
      (fun j => idx.getD (w - 25 + j) 0 / idx.getD (w - 26 + j) 0 - 1)))) ?_
    rw [volVarCol, rollApply_getD _ _ _ _ hw']
    rw [if_pos (by unfold WEEKLY_VOL_WINDOW; omega)]
    have hwin : windowAt WEEKLY_VOL_WINDOW (returnsCol idx) w =
        ((List.range 26).map
          (fun j => idx.getD (w - 25 + j) 0 / idx.getD (w - 26 + j) 0 - 1)).map some := by
      unfold windowAt WEEKLY_VOL_WINDOW
      rw [List.map_map]
      apply List.map_congr_left
      intro j hj
      have hj' : j < 26 := List.mem_range.mp hj
      have e : w + 1 - 26 + j = w - 25 + j := by omega
      rw [Function.comp_apply, e]
      have e2 : w - 25 + j - 1 = w - 26 + j := by omega
      rw [hret (w - 25 + j) (by omega) (by omega), e2]
    rw [hwin, seqOpt_map_some]
    rfl

/-- C8 witness: a 27-week constant table, evaluated at the 27th row. -/
theorem C8_volatility_window_witness :
    26 < (List.replicate 27 (1 : ℚ)).length ∧
      (((returnsCol (List.replicate 27 (1 : ℚ))).getD 0 none = none ∧
        (1 ≤ 26 → (returnsCol (List.replicate 27 (1 : ℚ))).getD 26 none =
          some ((List.replicate 27 (1 : ℚ)).getD 26 0 /
            (List.replicate 27 (1 : ℚ)).getD (26 - 1) 0 - 1))) ∧
      (26 < 26 → (volatilityCol (List.replicate 27 (1 : ℚ))).getD 26 none = none) ∧
      (26 ≤ 26 → (volatilityCol (List.replicate 27 (1 : ℚ))).getD 26 none =
        some (Real.sqrt
            (sampleVarQ ((List.range 26).map
              (fun j => (List.replicate 27 (1 : ℚ)).getD (26 - 25 + j) 0 /
                (List.replicate 27 (1 : ℚ)).getD (26 - 26 + j) 0 - 1))) *
          Real.sqrt 52))) :=
  ⟨by decide, C8_volatility_window (List.replicate 27 (1 : ℚ)) 26 (by decide)⟩

/-- C3 counterexample: on a one-week table the script's status string is
"🟢 COOL" (emoji-decorated), which is none of "OVERHEATED", "WARM", "COOL" —
so the claim that the status string is exactly one of those three fails. -/
theorem C3_status_counterexample :
    statusOf [1] [some 70] = some ("🟢 COOL") ∧
      ("🟢 COOL" : String) ≠ ("OVERHEATED") ∧
      ("🟢 COOL" : String) ≠ ("WARM") ∧
      ("🟢 COOL" : String) ≠ ("COOL") :=
  ⟨rfl, by decide, by decide, by decide⟩

/-- C3 amended: for a non-empty weekly table the current-status string is
exactly one of "🔥 OVERHEATED", "⚠️ WARM", "🟢 COOL" (the emoji-decorated
labels the script builds); it is "🔥 OVERHEATED" when the latest week's
overheat flag is true, otherwise "⚠️ WARM" when the latest week's stretch is
defined and > 0.20 and its sentiment is defined and > 60, and otherwise
"🟢 COOL". -/
theorem C3_status_amended (idx : List ℚ) (fng : List (Option ℚ)) (h : idx ≠ []) :
    (∃ s, statusOf idx fng = some s ∧
      (s = ("🔥 OVERHEATED") ∨ s = ("⚠️ WARM") ∨ s = ("🟢 COOL"))) ∧
    ((overheatCol idx fng).getD (idx.length - 1) false = true →
      statusOf idx fng = some ("🔥 OVERHEATED")) ∧
    (∀ st g, (overheatCol idx fng).getD (idx.length - 1) false = false →
      (stretchCol idx).getD (idx.length - 1) none = some st →
      fng.getD (idx.length - 1) none = some g →
      1 / 5 < st → 60 < g → statusOf idx fng = some ("⚠️ WARM")) ∧
    ((overheatCol idx fng).getD (idx.length - 1) false = false →
      (¬ ∃ st g, (stretchCol idx).getD (idx.length - 1) none = some st ∧
        fng.getD (idx.length - 1) none = some g ∧ 1 / 5 < st ∧ 60 < g) →
      statusOf idx fng = some ("🟢 COOL")) := by
  have hlen : ¬ idx.length = 0 := fun h0 => h (List.length_eq_zero.mp h0)
  refine ⟨?_, ?_, ?_, ?_⟩
  · unfold statusOf
    rw [if_neg hlen]
    exact ⟨_, rfl, by
      cases hov : (overheatCol idx fng).getD (idx.length - 1) false
      · rcases hst : (stretchCol idx).getD (idx.length - 1) none with _ | st
        · simp [hov, hst]
        · rcases hg : fng.getD (idx.length - 1) none with _ | g
          · simp [hov, hst, hg]
          · by_cases h1 : (20 : ℚ) < st * 100
            · by_cases h2 : (60 : ℚ) < g
              · simp [hov, hst, hg, h1, h2]
              · simp [hov, hst, hg, h2]
            · simp [hov, hst, h1]
      · simp [hov]⟩
  · intro hov1
    unfold statusOf
    rw [if_neg hlen, hov1]
    simp
  · intro st g hov0 hst hg h15 h60
    unfold statusOf
    rw [if_neg hlen, hov0, hst, hg]
    have h20 : (20 : ℚ) < st * 100 := by linarith
    simp [h20, h60]
  · intro hov0 hnw
    unfold statusOf
    rw [if_neg hlen, hov0]
    rcases hst : (stretchCol idx).getD (idx.length - 1) none with _ | st
    · simp [hst]
    · rcases hg : fng.getD (idx.length - 1) none with _ | g
      · simp [hst, hg]
      · by_cases h1 : (1 : ℚ) / 5 < st
        · by_cases h2 : (60 : ℚ) < g
          · exact absurd ⟨st, g, hst, hg, h1, h2⟩ hnw
          · simp [hst, hg, h2]
        · have h1' : ¬ (20 : ℚ) < st * 100 := fun hc => h1 (by linarith)
          simp [hst, hg, h1']

/-- C3 witness: the amended status rule instantiated at a one-week table. -/
theorem C3_status_amended_witness :
    (([(1 : ℚ)] : List ℚ) ≠ [] ∧ statusOf [1] [some 70] = some ("🟢 COOL")) ∧
      (∃ s, statusOf [1] [some 70] = some s ∧
        (s = ("🔥 OVERHEATED") ∨ s = ("⚠️ WARM") ∨ s = ("🟢 COOL"))) :=
  ⟨⟨by decide, rfl⟩, (C3_status_amended [1] [some 70] (by decide)).1⟩

/-- C10: the recent-overheating report is exactly the chronological list of
overheated rows restricted to the last at most ten of them: it is the
`tail(10)` of the filtered rows, is a suffix of them, never holds more than
ten rows, stays in increasing (chronological) row order, and every reported
row is an overheated row of the table. -/
theorem C10_recent_report (idx : List ℚ) (fng : List (Option ℚ)) :
    recentOverheat idx fng =
      (overheatIdxList idx fng).drop ((overheatIdxList idx fng).length - 10) ∧
    (recentOverheat idx fng).length = min (overheatIdxList idx fng).length 10 ∧
    recentOverheat idx fng <:+ overheatIdxList idx fng ∧
    List.Pairwise (· < ·) (recentOverheat idx fng) ∧
    (∀ i ∈ recentOverheat idx fng,
      (overheatCol idx fng).getD i false = true ∧ i < idx.length) := by
  refine ⟨rfl, ?_, List.drop_suffix _ _, ?_, ?_⟩
  · rw [recentOverheat, List.length_drop]
    omega
  · exact ((List.pairwise_lt_range _).filter _).sublist (List.drop_sublist _ _)
  · intro i hi
    have hi' : i ∈ overheatIdxList idx fng := List.drop_subset _ _ hi
    rw [overheatIdxList, List.mem_filter] at hi'
    exact ⟨by simpa using hi'.2, List.mem_range.mp hi'.1⟩

/-- C10 witness: the report characterization instantiated at the empty
table. -/
theorem C10_recent_report_witness :
    recentOverheat [] [] =
      (overheatIdxList [] []).drop ((overheatIdxList [] []).length - 10) ∧
    (recentOverheat [] []).length = min (overheatIdxList [] []).length 10 ∧
    recentOverheat [] [] <:+ overheatIdxList [] [] ∧
    List.Pairwise (· < ·) (recentOverheat [] []) ∧
    (∀ i ∈ recentOverheat [] [],
      (overheatCol [] []).getD i false = true ∧ i < ([] : List ℚ).length) :=
  C10_recent_report [] []

/-- C4: on empty daily input the weekly table is empty, but the script then
evaluates `weekly.iloc[-1]`, which raises `IndexError` (the `none` status)
instead of reporting a "no data" outcome; the recent-overheat report itself
is empty.  This exhibits the code-level failure behind the claim. -/
theorem C4_empty_input_eval :
    weeklyIdxOf [] [] = [] ∧ fngColOf [] [] none = [] ∧
      statusOf (weeklyIdxOf [] []) (fngColOf [] [] none) = none ∧
      recentOverheat (weeklyIdxOf [] []) (fngColOf [] [] none) = [] :=
  ⟨rfl, rfl, rfl, rfl⟩

lemma lookup_composite (btc eth : List (ℕ × ℚ)) (d : ℕ) :
    List.lookup d (compositeCol btc eth) =
      (List.lookup d btc).map (fun pa =>
        (List.lookup d eth).map (fun pe => wA * pa + wB * pe)) := by
  induction btc with
  | nil => rfl
  | cons p t ih =>
    obtain ⟨a, pa⟩ := p
    by_cases hd : d = a
    · subst hd
      simp [compositeCol, List.lookup]
    · have hba : (d == a) = false := beq_eq_false_iff_ne.mpr hd
      simp only [compositeCol, List.map_cons, List.lookup, hba] at ih ⊢
      exact ih

/-- C9: the composite daily index weights sum to exactly one, the index
equals `0.65·A + 0.35·B` at every date where both prices are defined, and it
is undefined at every date where either price is missing. -/
theorem C9_composite_index (btc eth : List (ℕ × ℚ)) (d : ℕ) :
    wA + wB = 1 ∧
    (∀ pa pb, List.lookup d btc = some pa → List.lookup d eth = some pb →
      idxAt d (compositeCol btc eth) = some (wA * pa + wB * pb)) ∧
    (List.lookup d btc = none → idxAt d (compositeCol btc eth) = none) ∧
    (List.lookup d eth = none → idxAt d (compositeCol btc eth) = none) := by
  refine ⟨by norm_num [wA, wB], ?_, ?_, ?_⟩
  · intro pa pb h1 h2
    rw [idxAt, lookup_composite, h1, h2]
    rfl
  · intro h1
    rw [idxAt, lookup_composite, h1]
    rfl
  · intro h2
    rw [idxAt, lookup_composite, h2]
    cases List.lookup d btc <;> rfl

/-- C9 witness: one shared date with prices 2 and 4. -/
theorem C9_composite_index_witness :
    List.lookup 0 [((0 : ℕ), (2 : ℚ))] = some 2 ∧
      List.lookup 0 [((0 : ℕ), (4 : ℚ))] = some 4 ∧
      idxAt 0 (compositeCol [(0, 2)] [(0, 4)]) = some (wA * 2 + wB * 4) :=
  ⟨rfl, rfl, (C9_composite_index [(0, 2)] [(0, 4)] 0).2.1 2 4 rfl rfl⟩

/-- C6: when the sentiment fetch fails for the whole run, the `except`
branch gives every weekly row the constant neutral sentiment 50, and on a
non-empty table the status computation still succeeds. -/
theorem C6_neutral_fallback (btc eth : List (ℕ × ℚ)) :
    (∀ o ∈ fngColOf btc eth none, o = some 50) ∧
    (weeklyIdxOf btc eth ≠ [] →
      (statusOf (weeklyIdxOf btc eth) (fngColOf btc eth none)).isSome = true) := by
  constructor
  · intro o ho
    unfold fngColOf at ho
    obtain ⟨k, -, rfl⟩ := List.mem_map.mp ho
    rfl
  · intro hne
    unfold statusOf
    rw [if_neg (by simpa [List.length_eq_zero] using hne)]
    rfl

/-- C6 witness: a two-week run with the sentiment feed unavailable. -/
theorem C6_neutral_fallback_witness :
    weeklyIdxOf [(0, 1), (7, 1)] [(0, 1), (7, 1)] ≠ [] ∧
      (statusOf (weeklyIdxOf [(0, 1), (7, 1)] [(0, 1), (7, 1)])
        (fngColOf [(0, 1), (7, 1)] [(0, 1), (7, 1)] none)).isSome = true :=
  ⟨by decide, (C6_neutral_fallback [(0, 1), (7, 1)] [(0, 1), (7, 1)]).2 (by decide)⟩

lemma foldr_min_mem (w : ℕ) (t : List ℕ) : t.foldr min w = w ∨ t.foldr min w ∈ t := by
  induction t with
  | nil => exact Or.inl rfl
  | cons b t ih =>
    simp only [List.foldr]
    rcases min_choice b (t.foldr min w) with h | h
    · rw [h]; exact Or.inr (List.mem_cons_self b t)
    · rw [h]
      rcases ih with h2 | h2
      · exact Or.inl h2
      · exact Or.inr (List.mem_cons_of_mem _ h2)

lemma wkMin_mem (ds : List ℕ) (h : ds ≠ []) : wkMin ds ∈ ds.map weekOf := by
  cases ds with
  | nil => exact absurd rfl h
  | cons d t =>
    have hw : wkMin (d :: t) = (t.map weekOf).foldr min (weekOf d) := rfl
    rw [hw, List.map_cons]
    rcases foldr_min_mem (weekOf d) (t.map weekOf) with h2 | h2
    · rw [h2]; exact List.mem_cons_self _ _
    · exact List.mem_cons_of_mem _ h2

lemma ffillGo_keys (l : List (ℕ × Option ℚ)) :
    ∀ c, (ffillGo c l).map Prod.fst = l.map Prod.fst := by
  induction l with
  | nil => intro c; rfl
  | cons p t ih =>
    intro c
    obtain ⟨a, b⟩ := p
    cases b <;> simp [ffillGo, ih]

lemma ffillGo_isSome (l : List (ℕ × Option ℚ)) :
    ∀ (v : ℚ) (q : ℕ × Option ℚ), q ∈ ffillGo (some v) l → q.2.isSome = true := by
  induction l with
  | nil => intro v q hq; cases hq
  | cons p t ih =>
    intro v q hq
    obtain ⟨a, b⟩ := p
    cases b with
    | none =>
      rw [show ffillGo (some v) ((a, none) :: t) =
        (a, some v) :: ffillGo (some v) t from rfl] at hq
      rcases List.mem_cons.mp hq with h | h
      · rw [h]; rfl
      · exact ih v q h
    | some u =>
      rw [show ffillGo (some v) ((a, some u) :: t) =
        (a, some u) :: ffillGo (some u) t from rfl] at hq
      rcases List.mem_cons.mp hq with h | h
      · rw [h]; rfl
      · exact ih u q h

lemma ffill_all_isSome (l : List (ℕ × Option ℚ)) (w0 : ℕ) (v0 : ℚ)
    (hh : l.head? = some (w0, some v0)) : ∀ q ∈ ffill l, q.2.isSome = true := by
  cases l with
  | nil => cases hh
  | cons p t =>
    have hp : p = (w0, some v0) := by simpa using hh
    subst hp
    intro q hq
    rw [show ffill ((w0, some v0) :: t) =
      (w0, some v0) :: ffillGo (some v0) t from rfl] at hq
    rcases List.mem_cons.mp hq with h | h
    · rw [h]; rfl
    · exact ffillGo_isSome t v0 q h

lemma lookup_mem_of_mem_keys (k : ℕ) (l : List (ℕ × Option ℚ))
    (h : k ∈ l.map Prod.fst) :
    ∃ o, List.lookup k l = some o ∧ (k, o) ∈ l := by
  induction l with
  | nil => simp at h
  | cons p t ih =>
    obtain ⟨a, b⟩ := p
    by_cases hk : k = a
    · subst hk
      exact ⟨b, by simp [List.lookup], List.mem_cons_self _ _⟩
    · have hba : (k == a) = false := beq_eq_false_iff_ne.mpr hk
      have h' : k ∈ t.map Prod.fst := by
        rw [List.map_cons] at h
        rcases List.mem_cons.mp h with h2 | h2
        · exact absurd h2 hk
        · exact h2
      obtain ⟨o, ho, hm⟩ := ih h'
      exact ⟨o, by simp [List.lookup, hba, ho], List.mem_cons_of_mem _ hm⟩

lemma resampleMean_head (f : List (ℕ × ℚ)) (hf : f ≠ []) :
    ∃ v : ℚ, (resampleMean f).head? =
      some (wkMin (f.map Prod.fst), some v) := by
  cases f with
  | nil => exact absurd rfl hf
  | cons p t =>
    have hrange : weeksRange ((p :: t).map Prod.fst) =
        wkMin ((p :: t).map Prod.fst) ::
          List.range' (wkMin ((p :: t).map Prod.fst) + 1)
            (wkMax ((p :: t).map Prod.fst) - wkMin ((p :: t).map Prod.fst)) := by
      rw [show weeksRange ((p :: t).map Prod.fst) =
          List.range' (wkMin ((p :: t).map Prod.fst))
            (wkMax ((p :: t).map Prod.fst) - wkMin ((p :: t).map Prod.fst) + 1) from rfl]
      exact List.range'_succ _ _ 1
    unfold resampleMean
    rw [hrange]
    have hmem : wkMin ((p :: t).map Prod.fst) ∈ ((p :: t).map Prod.fst).map weekOf :=
      wkMin_mem _ (by simp)
    obtain ⟨d, hd, hdw⟩ := List.mem_map.mp hmem
    obtain ⟨q, hq, rfl⟩ := List.mem_map.mp hd
    have hfilter : q ∈ (p :: t).filter
        (fun r => weekOf r.1 == wkMin ((p :: t).map Prod.fst)) := by
      rw [List.mem_filter]
      exact ⟨hq, by simp [hdw]⟩
    have hlen : ¬ (bucketVals (p :: t) (wkMin ((p :: t).map Prod.fst))).length = 0 := by
      rw [bucketVals, List.length_map, List.length_eq_zero]
      exact List.ne_nil_of_mem hfilter
    show ∃ v, some (wkMin ((p :: t).map Prod.fst),
        if (bucketVals (p :: t) (wkMin ((p :: t).map Prod.fst))).length = 0 then none
        else some ((bucketVals (p :: t) (wkMin ((p :: t).map Prod.fst))).sum /
          (bucketVals (p :: t) (wkMin ((p :: t).map Prod.fst))).length)) =
      some (wkMin ((p :: t).map Prod.fst), some v)
    rw [if_neg hlen]
    exact ⟨_, rfl⟩

/-- C5 counterexample: prices start in week 0 but the first sentiment sample
only arrives in week 1; the weekly table has two rows and the first row's
sentiment is NaN (`ffill` cannot fill a leading gap), refuting the claim
that sentiment is defined on every row. -/
theorem C5_sentiment_counterexample :
    (weeklyIdxOf [(0, 1), (7, 1)] [(0, 1), (7, 1)]).length = 2 ∧
      (fngColOf [(0, 1), (7, 1)] [(0, 1), (7, 1)] (some [(7, 70)]))[0]? = some none := by
  constructor
  · decide
  · decide

lemma map_fst_pairs {β : Type _} (g : ℕ → β) (l : List ℕ) :
    (l.map (fun w => (w, g w))).map Prod.fst = l := by
  induction l with
  | nil => rfl
  | cons a t ih => simp [ih]

/-- C5 amended: sentiment is defined (never NaN) at every weekly row whose
week lies between the first and the last week holding a sentiment sample;
rows before the first sentiment sample (or after the last) keep an undefined
sentiment — forward filling removes internal gaps only. -/
theorem C5_sentiment_amended (btc eth f : List (ℕ × ℚ)) (hf : f ≠ []) (i k : ℕ)
    (hk : (weeklyWeeks btc eth)[i]? = some k)
    (h1 : wkMin (f.map Prod.fst) ≤ k) (h2 : k ≤ wkMax (f.map Prod.fst)) :
    ∃ v : ℚ, (fngColOf btc eth (some f))[i]? = some (some v) := by
  have hkeys : (ffill (resampleMean f)).map Prod.fst = weeksRange (f.map Prod.fst) := by
    rw [ffill, ffillGo_keys]
    unfold resampleMean
    exact map_fst_pairs _ _
  have hmemk : k ∈ (ffill (resampleMean f)).map Prod.fst := by
    rw [hkeys]
    cases f with
    | nil => exact absurd rfl hf
    | cons p t =>
      rw [show weeksRange ((p :: t).map Prod.fst) =
          List.range' (wkMin ((p :: t).map Prod.fst))
            (wkMax ((p :: t).map Prod.fst) - wkMin ((p :: t).map Prod.fst) + 1) from rfl]
      exact List.mem_range'_1.mpr ⟨h1, by omega⟩
  obtain ⟨o, ho, hom⟩ := lookup_mem_of_mem_keys k _ hmemk
  obtain ⟨v0, hv0⟩ := resampleMean_head f hf
  have hsome := ffill_all_isSome (resampleMean f) _ _ hv0 (k, o) hom
  obtain ⟨v, hv⟩ := Option.isSome_iff_exists.mp hsome
  refine ⟨v, ?_⟩
  have hcol : fngColOf btc eth (some f) =
      alignTo (weeklyWeeks btc eth) (ffill (resampleMean f)) := rfl
  rw [hcol]
  unfold alignTo
  rw [List.getElem?_map, hk]
  show some ((List.lookup k (ffill (resampleMean f))).getD none) = some (some v)
  rw [ho]
  have hv' : o = some v := hv
  show some o = some (some v)
  rw [hv']

/-- C5 witness: the amended in-range rule at the second weekly row, whose
week holds the only sentiment sample. -/
theorem C5_sentiment_amended_witness :
    (([((7 : ℕ), (70 : ℚ))] : List (ℕ × ℚ)) ≠ [] ∧
      (weeklyWeeks [(0, 1), (7, 1)] [(0, 1), (7, 1)])[1]? = some 1 ∧
      wkMin ([((7 : ℕ), (70 : ℚ))].map Prod.fst) ≤ 1 ∧
      1 ≤ wkMax ([((7 : ℕ), (70 : ℚ))].map Prod.fst)) ∧
    (∃ v : ℚ, (fngColOf [(0, 1), (7, 1)] [(0, 1), (7, 1)]
      (some [(7, 70)]))[1]? = some (some v)) :=
  ⟨⟨by decide, by decide, by decide, by decide⟩,
    C5_sentiment_amended [(0, 1), (7, 1)] [(0, 1), (7, 1)] [(7, 70)]
      (by decide) 1 1 (by decide) (by decide) (by decide)⟩
